import Mathlib

/-!
Verification of the RFM (Recency / Frequency / Monetary) segmentation core
of the Marketing-Analytics-Pipeline repository (src/Project1.py, STEP 10-12).

The pandas script is embedded shallowly:

* A transaction row of the cleaned dataframe becomes `TransactionRecord`
  (invoice dates are modelled at day granularity as natural numbers, so
  `(reference_date - x.max()).days` is plain subtraction).
* `rfm = df.groupby('CustomerID').agg(...)` (lines 122-130) becomes `rfm`:
  pandas `groupby` iterates the distinct keys in ascending order, and the
  three aggregates are `(reference_date - max).days`, `nunique` and `sum`.
* `pd.qcut(values, q=4, labels=...)` (lines 135-137) becomes `qcut`:
  the 0/25/50/75/100-percentile edges are computed with numpy's linear
  interpolation (`quantile`); if the five edges are not pairwise distinct
  pandas raises `ValueError: Bin edges must be unique` (modelled as
  `PipelineError.degenerateDistribution`; a quantile of an empty series is
  `NaN`, which collapses the edges as well — modelled as
  `PipelineError.emptyInput`); otherwise every value falls in the
  right-closed bin `(e_i, e_{i+1}]`, the minimum being pulled into bin 0 by
  `include_lowest`.
* `rank(method='first')` (line 136) becomes `rankFirstN`: the 1-based rank
  of each entry in a stable ascending sort.
* The string classifier of lines 142-150 becomes `RFM_Segment` / `RFM_Level`.
-/

/-- A cleaned transaction row (invoice dates at day granularity). -/
structure TransactionRecord where
  customerId : Nat
  invoiceId : Nat
  invoiceDate : Nat
  quantity : Nat
  unitPrice : ℚ
deriving DecidableEq, Repr

/-- `TotalPrice = Quantity * UnitPrice` (line 49). -/
def lineTotal (t : TransactionRecord) : ℚ := (t.quantity : ℚ) * t.unitPrice

/-- One aggregated row of the `rfm` dataframe (lines 124-130). -/
structure CustomerMetrics where
  customerId : Nat
  recencyDays : Nat
  frequency : Nat
  monetary : ℚ
deriving DecidableEq, Repr

/-- One scored row (lines 135-137). -/
structure RFMScore where
  customerId : Nat
  rScore : Nat
  fScore : Nat
  mScore : Nat
deriving DecidableEq, Repr

/-- One output row of the segmentation (lines 142-150). -/
structure Segment where
  customerId : Nat
  segmentCode : String
  tierLabel : String
deriving DecidableEq, Repr

/-- Failure modes of `pd.qcut`; both surface as a pandas `ValueError`
("Bin edges must be unique"), distinguished here by their cause. -/
inductive PipelineError where
  | emptyInput
  | degenerateDistribution
deriving DecidableEq, Repr

/-- The greatest `invoiceDate` in a transaction list (`df['InvoiceDate'].max()`). -/
def maxInvoiceDate (ts : List TransactionRecord) : Nat :=
  (ts.map (·.invoiceDate)).foldr max 0

/-- `reference_date = df['InvoiceDate'].max() + pd.Timedelta(days=1)` (line 122). -/
def reference_date (ts : List TransactionRecord) : Nat :=
  maxInvoiceDate ts + 1

/-- The distinct customer ids in ascending order: the group keys produced by
`df.groupby('CustomerID')` (pandas sorts group keys ascending). -/
def customerIds (ts : List TransactionRecord) : List Nat :=
  List.insertionSort (· ≤ ·) (ts.map (·.customerId)).dedup

/-- The rows of customer `c` (one group of the groupby). -/
def custTxns (ts : List TransactionRecord) (c : Nat) : List TransactionRecord :=
  ts.filter (fun t => t.customerId == c)

/-- The three aggregates of lines 124-128 for one group: recency
`(reference_date - x.max()).days`, frequency `InvoiceNo nunique`, monetary
`TotalPrice sum`. -/
def aggCustomer (ts : List TransactionRecord) (ref : Nat) (c : Nat) : CustomerMetrics :=
  { customerId := c
    recencyDays := ref - maxInvoiceDate (custTxns ts c)
    frequency := ((custTxns ts c).map (·.invoiceId)).dedup.length
    monetary := ((custTxns ts c).map lineTotal).sum }

/-- The `rfm` dataframe of lines 122-130: one row per distinct customer id,
in ascending id order. -/
def rfm (ts : List TransactionRecord) : List CustomerMetrics :=
  (customerIds ts).map (aggCustomer ts (reference_date ts))

/-- Ascending stable sort of a rational-valued series. -/
def sortedAsc (xs : List ℚ) : List ℚ := List.insertionSort (· ≤ ·) xs

/-- numpy's linear-interpolation quantile of a series: position
`h = p * (n - 1)` in the ascending sort, interpolating between the
neighbouring order statistics. -/
def quantile (xs : List ℚ) (p : ℚ) : ℚ :=
  let s := sortedAsc xs
  let h : ℚ := p * ((xs.length : ℚ) - 1)
  let i : Nat := (⌊h⌋).toNat
  let a : ℚ := s.getD i 0
  a + (h - (i : ℚ)) * (s.getD (i + 1) a - a)

/-- The five quantile cut points computed by `pd.qcut(xs, q=4)`. -/
structure QEdges where
  e0 : ℚ
  e1 : ℚ
  e2 : ℚ
  e3 : ℚ
  e4 : ℚ
deriving DecidableEq, Repr

/-- The 0th/25th/50th/75th/100th percentile edges; on an empty series every
quantile is `NaN` and the edge vector is unusable. -/
def qcutEdges (xs : List ℚ) : Option QEdges :=
  if xs.isEmpty then none
  else some
    { e0 := quantile xs 0
      e1 := quantile xs (1/4)
      e2 := quantile xs (1/2)
      e3 := quantile xs (3/4)
      e4 := quantile xs 1 }

/-- pandas' uniqueness check on the (monotone) edge vector: adjacent edges
must be strictly increasing, else `ValueError: Bin edges must be unique`. -/
def edgesOK (E : QEdges) : Bool :=
  decide (E.e0 < E.e1) && decide (E.e1 < E.e2) &&
    decide (E.e2 < E.e3) && decide (E.e3 < E.e4)

/-- Bin membership: right-closed intervals `(e_i, e_{i+1}]`, the minimum
falling into bin 0 via `include_lowest`. -/
def binIdx (E : QEdges) (v : ℚ) : Nat :=
  if v ≤ E.e1 then 0
  else if v ≤ E.e2 then 1
  else if v ≤ E.e3 then 2
  else 3

/-- `pd.qcut(xs, q=4, labels=labels)` where `labels bin` is the label of
the given bin index. -/
def qcut (xs : List ℚ) (labels : Nat → Nat) : Except PipelineError (List Nat) :=
  match qcutEdges xs with
  | none => .error .emptyInput
  | some E =>
    if edgesOK E then .ok (xs.map fun v => labels (binIdx E v))
    else .error .degenerateDistribution

/-- `labels=[4, 3, 2, 1]` of line 135: bin 0 (smallest recency) gets 4. -/
def rLabels (b : Nat) : Nat := 4 - b

/-- `labels=[1, 2, 3, 4]` of lines 136-137: bin 0 gets 1. -/
def fmLabels (b : Nat) : Nat := b + 1

/-- The `rank(method='first')` rank of the entry at index `i`: its 1-based
position in a stable ascending sort, i.e. 1 + #(strictly smaller anywhere) +
#(equal, strictly earlier). -/
def rankOf (xs : List ℚ) (i : Nat) : Nat :=
  1 + xs.countP (fun y => decide (y < xs.getD i 0)) +
    (xs.take i).countP (fun y => decide (y = xs.getD i 0))

/-- `rank(method='first')` (line 136) applied to the whole series. -/
def rankFirstN (xs : List ℚ) : List Nat :=
  (List.range xs.length).map (rankOf xs)

/-- The ranks as a float series, as pandas feeds them to `qcut`. -/
def rankFirst (xs : List ℚ) : List ℚ :=
  (rankFirstN xs).map (fun r : Nat => (r : ℚ))

/-- Line 135: `pd.qcut(rfm['Recency'], q=4, labels=[4, 3, 2, 1])`. -/
def R_Score (ms : List CustomerMetrics) : Except PipelineError (List Nat) :=
  qcut (ms.map fun m => (m.recencyDays : ℚ)) rLabels

/-- Line 136: `pd.qcut(rfm['Frequency'].rank(method='first'), q=4, labels=[1, 2, 3, 4])`. -/
def F_Score (ms : List CustomerMetrics) : Except PipelineError (List Nat) :=
  qcut (rankFirst (ms.map fun m => (m.frequency : ℚ))) fmLabels

/-- Line 137: `pd.qcut(rfm['Monetary'], q=4, labels=[1, 2, 3, 4])`. -/
def M_Score (ms : List CustomerMetrics) : Except PipelineError (List Nat) :=
  qcut (ms.map (·.monetary)) fmLabels

/-- Lines 135-137 in program order: the three score columns appended to the
`rfm` rows; the first raising `qcut` aborts the run. -/
def rfmScores (ms : List CustomerMetrics) : Except PipelineError (List RFMScore) :=
  match R_Score ms with
  | .error e => .error e
  | .ok rs =>
    match F_Score ms with
    | .error e => .error e
    | .ok fs =>
      match M_Score ms with
      | .error e => .error e
      | .ok mcs => .ok ((List.range ms.length).map fun i =>
          { customerId := (ms.getD i ⟨0, 0, 0, 0⟩).customerId
            rScore := rs.getD i 0
            fScore := fs.getD i 0
            mScore := mcs.getD i 0 })

/-- Line 142: `R_Score.astype(str) + F_Score.astype(str) + M_Score.astype(str)`. -/
def RFM_Segment (r f m : Nat) : String :=
  toString r ++ toString f ++ toString m

/-- Lines 144-150: `'Champions' if x == '444' else ('Loyal' if x[0] == '4'
else ('At Risk' if x[0] == '1' else 'Others'))`. -/
def RFM_Level (x : String) : String :=
  if x = "444" then "Champions"
  else if x.front = '4' then "Loyal"
  else if x.front = '1' then "At Risk"
  else "Others"

/-- The segment column pair computed per scored row (lines 142-150). -/
def segments (ss : List RFMScore) : List Segment :=
  ss.map fun s =>
    { customerId := s.customerId
      segmentCode := RFM_Segment s.rScore s.fScore s.mScore
      tierLabel := RFM_Level (RFM_Segment s.rScore s.fScore s.mScore) }

/-- The whole core pipeline: aggregate (STEP 10), score (STEP 11),
classify (STEP 12). -/
def pipeline (ts : List TransactionRecord) : Except PipelineError (List Segment) :=
  (rfmScores (rfm ts)).map segments

/-! ### Concrete populations used in witnesses and counterexamples -/

/-- The all-zero metrics row, used only as a `getD` fallback. -/
def mZero : CustomerMetrics := ⟨0, 0, 0, 0⟩

/-- Four customers with strictly increasing recency and constant
frequency / monetary. -/
def ms4R : List CustomerMetrics :=
  [⟨1, 1, 5, 10⟩, ⟨2, 2, 5, 10⟩, ⟨3, 3, 5, 10⟩, ⟨4, 4, 5, 10⟩]

/-- The spec's own two-customer example population, already aggregated. -/
def msPair : List CustomerMetrics := [⟨1, 11, 1, 15⟩, ⟨2, 1, 1, 1000⟩]

/-- A four-customer population whose monetary column is constant. -/
def msDeg : List CustomerMetrics :=
  [⟨1, 1, 5, 7⟩, ⟨2, 2, 6, 7⟩, ⟨3, 3, 7, 7⟩, ⟨4, 4, 8, 7⟩]

/-- A four-customer population whose recency column is constant. -/
def msDegR : List CustomerMetrics :=
  [⟨1, 5, 1, 1⟩, ⟨2, 5, 2, 2⟩, ⟨3, 5, 3, 3⟩, ⟨4, 5, 4, 4⟩]

/-- Four single-transaction customers (dates chosen so recency ascends). -/
def ts4 : List TransactionRecord :=
  [⟨1, 1, 3, 1, 1⟩, ⟨2, 2, 2, 1, 2⟩, ⟨3, 3, 1, 1, 3⟩, ⟨4, 4, 0, 1, 4⟩]

/-- The aggregated metrics of `ts4`. -/
def rfmW4 : List CustomerMetrics :=
  [⟨1, 1, 1, 1⟩, ⟨2, 2, 1, 2⟩, ⟨3, 3, 1, 3⟩, ⟨4, 4, 1, 4⟩]

/-- The segments the pipeline produces on `ts4`. -/
def segs4 : List Segment :=
  [⟨1, "411", "Loyal"⟩, ⟨2, "322", "Others"⟩, ⟨3, "233", "Others"⟩, ⟨4, "144", "At Risk"⟩]

/-! ### Helper lemmas: `sortedAsc` and `qcut` on small explicit populations -/

lemma sortedAsc_of_sorted {xs : List ℚ} (h : xs.Sorted (· ≤ ·)) : sortedAsc xs = xs :=
  List.eq_of_perm_of_sorted (List.perm_insertionSort _ xs) (List.sorted_insertionSort _ xs) h

lemma sorted_four {a b c d : ℚ} (hab : a ≤ b) (hbc : b ≤ c) (hcd : c ≤ d) :
    List.Sorted (· ≤ ·) [a, b, c, d] := by
  rw [List.Sorted, ← List.chain'_iff_pairwise]
  simp only [List.chain'_cons, List.Chain.nil, List.chain'_singleton, and_true]
  exact ⟨hab, hbc, hcd⟩

lemma quantile_four {a b c d : ℚ} (hab : a ≤ b) (hbc : b ≤ c) (hcd : c ≤ d) :
    quantile [a, b, c, d] 0 = a ∧
    quantile [a, b, c, d] (1/4) = a + 3/4 * (b - a) ∧
    quantile [a, b, c, d] (1/2) = b + 1/2 * (c - b) ∧
    quantile [a, b, c, d] (3/4) = c + 1/4 * (d - c) ∧
    quantile [a, b, c, d] 1 = d := by
  have hs : sortedAsc [a, b, c, d] = [a, b, c, d] :=
    sortedAsc_of_sorted (sorted_four hab hbc hcd)
  have h2 : Int.toNat 2 = 2 := rfl
  have h3 : Int.toNat 3 = 3 := rfl
  refine ⟨?_, ?_, ?_, ?_, ?_⟩ <;>
    · simp only [quantile, hs, List.length_cons, List.length_nil]
      norm_num [List.getD, Int.toNat_one, Int.toNat_zero, h2, h3]

/-- `pd.qcut` on four strictly increasing values puts each in its own
quartile bin. -/
lemma qcut_four_asc (L : Nat → Nat) {a b c d : ℚ}
    (hab : a < b) (hbc : b < c) (hcd : c < d) :
    qcut [a, b, c, d] L = .ok [L 0, L 1, L 2, L 3] := by
  obtain ⟨q0, q1, q2, q3, q4⟩ := quantile_four hab.le hbc.le hcd.le
  have hE : qcutEdges [a, b, c, d] =
      some ⟨a, a + 3/4 * (b - a), b + 1/2 * (c - b), c + 1/4 * (d - c), d⟩ := by
    rw [qcutEdges]
    simp only [List.isEmpty_cons, Bool.false_eq_true, if_false, q0, q1, q2, q3, q4]
  have hok : edgesOK ⟨a, a + 3/4 * (b - a), b + 1/2 * (c - b), c + 1/4 * (d - c), d⟩ = true := by
    simp only [edgesOK, Bool.and_eq_true, decide_eq_true_eq]
    refine ⟨⟨⟨?_, ?_⟩, ?_⟩, ?_⟩ <;> linarith
  rw [qcut, hE]
  simp only [hok, if_true]
  have ba : binIdx ⟨a, a + 3/4 * (b - a), b + 1/2 * (c - b), c + 1/4 * (d - c), d⟩ a = 0 := by
    rw [binIdx]; rw [if_pos (by linarith)]
  have bb : binIdx ⟨a, a + 3/4 * (b - a), b + 1/2 * (c - b), c + 1/4 * (d - c), d⟩ b = 1 := by
    rw [binIdx]; rw [if_neg (by intro h; linarith), if_pos (by linarith)]
  have bc' : binIdx ⟨a, a + 3/4 * (b - a), b + 1/2 * (c - b), c + 1/4 * (d - c), d⟩ c = 2 := by
    rw [binIdx]
    rw [if_neg (by intro h; linarith), if_neg (by intro h; linarith), if_pos (by linarith)]
  have bd : binIdx ⟨a, a + 3/4 * (b - a), b + 1/2 * (c - b), c + 1/4 * (d - c), d⟩ d = 3 := by
    rw [binIdx]
    rw [if_neg (by intro h; linarith), if_neg (by intro h; linarith),
      if_neg (by intro h; linarith)]
  simp only [List.map_cons, List.map_nil, ba, bb, bc', bd]

lemma sorted_pair {a b : ℚ} (hab : a ≤ b) : List.Sorted (· ≤ ·) [a, b] := by
  rw [List.Sorted, ← List.chain'_iff_pairwise]
  simp only [List.chain'_cons, List.chain'_singleton, and_true]
  exact hab

lemma quantile_pair {xs : List ℚ} {a b : ℚ} (hs : sortedAsc xs = [a, b]) (hl : xs.length = 2) :
    quantile xs 0 = a ∧
    quantile xs (1/4) = a + 1/4 * (b - a) ∧
    quantile xs (1/2) = a + 1/2 * (b - a) ∧
    quantile xs (3/4) = a + 3/4 * (b - a) ∧
    quantile xs 1 = b := by
  refine ⟨?_, ?_, ?_, ?_, ?_⟩ <;>
    · simp only [quantile, hs, hl]
      norm_num [List.getD, Int.toNat_one, Int.toNat_zero]

lemma qcutEdges_pair {xs : List ℚ} {a b : ℚ} (hs : sortedAsc xs = [a, b])
    (hl : xs.length = 2) (hne : xs.isEmpty = false) :
    qcutEdges xs = some ⟨a, a + 1/4 * (b - a), a + 1/2 * (b - a), a + 3/4 * (b - a), b⟩ := by
  obtain ⟨q0, q1, q2, q3, q4⟩ := quantile_pair hs hl
  rw [qcutEdges]
  simp only [hne, Bool.false_eq_true, if_false, q0, q1, q2, q3, q4]

/-- `pd.qcut` with `q=4` on two distinct values succeeds: the interpolated
edges are pairwise distinct, the smaller value lands in bin 0 and the larger
in bin 3. -/
lemma qcut_pair_asc (L : Nat → Nat) {a b : ℚ} (hab : a < b) :
    qcut [a, b] L = .ok [L 0, L 3] := by
  have hs : sortedAsc [a, b] = [a, b] := sortedAsc_of_sorted (sorted_pair hab.le)
  have hE := qcutEdges_pair hs (by simp) (by simp)
  have hok : edgesOK ⟨a, a + 1/4 * (b - a), a + 1/2 * (b - a), a + 3/4 * (b - a), b⟩ = true := by
    simp only [edgesOK, Bool.and_eq_true, decide_eq_true_eq]
    refine ⟨⟨⟨?_, ?_⟩, ?_⟩, ?_⟩ <;> linarith
  rw [qcut, hE]
  simp only [hok, if_true]
  have ba : binIdx ⟨a, a + 1/4 * (b - a), a + 1/2 * (b - a), a + 3/4 * (b - a), b⟩ a = 0 := by
    rw [binIdx]; rw [if_pos (by linarith)]
  have bb : binIdx ⟨a, a + 1/4 * (b - a), a + 1/2 * (b - a), a + 3/4 * (b - a), b⟩ b = 3 := by
    rw [binIdx]
    rw [if_neg (by intro h; linarith), if_neg (by intro h; linarith),
      if_neg (by intro h; linarith)]
  simp only [List.map_cons, List.map_nil, ba, bb]

/-- Same, with the larger value listed first. -/
lemma qcut_pair_desc (L : Nat → Nat) {a b : ℚ} (hab : b < a) :
    qcut [a, b] L = .ok [L 3, L 0] := by
  have hs : sortedAsc [a, b] = [b, a] := by
    simp only [sortedAsc, List.insertionSort, List.orderedInsert]
    rw [if_neg (by intro h; exact absurd h (not_le.mpr hab))]
  have hE := qcutEdges_pair hs (by simp) (by simp)
  have hok : edgesOK ⟨b, b + 1/4 * (a - b), b + 1/2 * (a - b), b + 3/4 * (a - b), a⟩ = true := by
    simp only [edgesOK, Bool.and_eq_true, decide_eq_true_eq]
    refine ⟨⟨⟨?_, ?_⟩, ?_⟩, ?_⟩ <;> linarith
  rw [qcut, hE]
  simp only [hok, if_true]
  have ba : binIdx ⟨b, b + 1/4 * (a - b), b + 1/2 * (a - b), b + 3/4 * (a - b), a⟩ a = 3 := by
    rw [binIdx]
    rw [if_neg (by intro h; linarith), if_neg (by intro h; linarith),
      if_neg (by intro h; linarith)]
  have bb : binIdx ⟨b, b + 1/4 * (a - b), b + 1/2 * (a - b), b + 3/4 * (a - b), a⟩ b = 0 := by
    rw [binIdx]; rw [if_pos (by linarith)]
  simp only [List.map_cons, List.map_nil, ba, bb]

/-- A metric whose four values coincide collapses all five quantile edges:
pandas raises `ValueError: Bin edges must be unique`. -/
lemma qcut_four_const (L : Nat → Nat) (c : ℚ) :
    qcut [c, c, c, c] L = .error .degenerateDistribution := by
  obtain ⟨q0, q1, q2, q3, q4⟩ := quantile_four (le_refl c) (le_refl c) (le_refl c)
  have hE : qcutEdges [c, c, c, c] = some ⟨c, c, c, c, c⟩ := by
    rw [qcutEdges]
    simp only [List.isEmpty_cons, Bool.false_eq_true, if_false, q0, q1, q2, q3, q4]
    norm_num
  have hbad : edgesOK ⟨c, c, c, c, c⟩ = false := by
    simp [edgesOK]
  rw [qcut, hE]
  simp only [hbad, Bool.false_eq_true, if_false]

/-! ### Helper lemmas: bin membership and `qcut` inversion -/

lemma binIdx_le_three (E : QEdges) (v : ℚ) : binIdx E v ≤ 3 := by
  unfold binIdx
  split_ifs <;> omega

lemma binIdx_mono (E : QEdges) {v w : ℚ} (h : v ≤ w) : binIdx E v ≤ binIdx E w := by
  unfold binIdx
  split_ifs <;> first | omega | (exfalso; linarith)

lemma getD_map {α β : Type} (f : α → β) (d : α) (d' : β) (l : List α) (i : Nat)
    (hi : i < l.length) : (l.map f).getD i d' = f (l.getD i d) := by
  induction l generalizing i with
  | nil => simp at hi
  | cons x t ih =>
    cases i with
    | zero => simp
    | succ n =>
      simp only [List.map_cons, List.getD_cons_succ]
      exact ih n (by simpa using hi)

lemma qcut_ok_iff {xs : List ℚ} {L : Nat → Nat} {out : List Nat} :
    qcut xs L = .ok out ↔ ∃ E, qcutEdges xs = some E ∧ edgesOK E = true ∧
      out = xs.map (fun v => L (binIdx E v)) := by
  constructor
  · intro h
    cases hE : qcutEdges xs with
    | none => rw [qcut, hE] at h; cases h
    | some E =>
      rw [qcut, hE] at h
      dsimp only at h
      by_cases hok : edgesOK E = true
      · rw [if_pos hok] at h
        exact ⟨E, rfl, hok, (Except.ok.inj h).symm⟩
      · rw [if_neg hok] at h; cases h
  · rintro ⟨E, hE, hok, rfl⟩
    rw [qcut, hE]
    dsimp only
    rw [if_pos hok]

lemma qcutEdges_some {xs : List ℚ} (h : xs.isEmpty = false) :
    qcutEdges xs = some ⟨quantile xs 0, quantile xs (1/4), quantile xs (1/2),
      quantile xs (3/4), quantile xs 1⟩ := by
  rw [qcutEdges]
  simp [h]

lemma qcut_error_elim {xs : List ℚ} {L : Nat → Nat} {e : PipelineError}
    (h : xs.isEmpty = false) (he : qcut xs L = .error e) :
    e = .degenerateDistribution := by
  obtain ⟨E, hE⟩ : ∃ E, qcutEdges xs = some E := ⟨_, qcutEdges_some h⟩
  rw [qcut, hE] at he
  dsimp only at he
  by_cases hok : edgesOK E = true
  · rw [if_pos hok] at he; cases he
  · rw [if_neg hok] at he
    exact (Except.error.inj he).symm

lemma qcut_ok_edges_true {xs : List ℚ} {L : Nat → Nat} {out : List Nat} {E : QEdges}
    (hok : qcut xs L = .ok out) (hE : qcutEdges xs = some E) : edgesOK E = true := by
  obtain ⟨E', hE', ht, _⟩ := qcut_ok_iff.mp hok
  rw [hE] at hE'
  cases hE'
  exact ht

/-- Core of the recency inversion: whenever recency scoring succeeds, a
strictly more recent customer gets at least as high an `R_Score`. -/
lemma rscore_antitone {ms : List CustomerMetrics} {rs : List Nat}
    (h : R_Score ms = .ok rs) {i j : Nat} (hi : i < ms.length) (hj : j < ms.length)
    (hr : (ms.getD i mZero).recencyDays < (ms.getD j mZero).recencyDays) :
    rs.getD j 0 ≤ rs.getD i 0 := by
  obtain ⟨E, hE, hok, rfl⟩ := qcut_ok_iff.mp h
  rw [List.map_map]
  have hlen : i < (ms.map fun m => (m.recencyDays : ℚ)).length := by simpa using hi
  have hlen' : j < (ms.map fun m => (m.recencyDays : ℚ)).length := by simpa using hj
  rw [getD_map _ mZero _ _ _ (by simpa using hj), getD_map _ mZero _ _ _ (by simpa using hi)]
  have hmono : binIdx E ((ms.getD i mZero).recencyDays : ℚ) ≤
      binIdx E ((ms.getD j mZero).recencyDays : ℚ) :=
    binIdx_mono E (by exact_mod_cast hr.le)
  have h3i := binIdx_le_three E ((ms.getD i mZero).recencyDays : ℚ)
  have h3j := binIdx_le_three E ((ms.getD j mZero).recencyDays : ℚ)
  simp only [Function.comp, rLabels]
  omega

/-- Four strictly increasing recency values each land in their own quartile
bin and receive labels 4, 3, 2, 1. -/
lemma rscore_four_asc {ms : List CustomerMetrics} {a b c d : Nat}
    (h1 : a < b) (h2 : b < c) (h3 : c < d)
    (hmap : ms.map (·.recencyDays) = [a, b, c, d]) :
    R_Score ms = .ok [4, 3, 2, 1] := by
  rw [R_Score]
  have hcomp : (ms.map fun m => (m.recencyDays : ℚ)) = [(a : ℚ), b, c, d] := by
    rw [show (fun m : CustomerMetrics => (m.recencyDays : ℚ)) =
      (fun n : Nat => (n : ℚ)) ∘ (fun m => m.recencyDays) from rfl, ← List.map_map, hmap]
    simp
  rw [hcomp, qcut_four_asc rLabels (by exact_mod_cast h1) (by exact_mod_cast h2)
    (by exact_mod_cast h3)]
  rfl

/-- C3: recency scores are inverted relative to the quartile bins: bin 0
(smallest recency) receives 4 down to bin 3 receiving 1; on a population of
exactly 4 strictly increasing recency values the scores are 4, 3, 2, 1 in
order of increasing recency. -/
theorem recency_quartile_inversion :
    (∀ (ms : List CustomerMetrics) (a b c d : Nat), a < b → b < c → c < d →
      ms.map (·.recencyDays) = [a, b, c, d] → R_Score ms = .ok [4, 3, 2, 1]) ∧
    (∀ (ms : List CustomerMetrics) (rs : List Nat), R_Score ms = .ok rs →
      ∀ i j, i < ms.length → j < ms.length →
      (ms.getD i mZero).recencyDays < (ms.getD j mZero).recencyDays →
      rs.getD j 0 ≤ rs.getD i 0) :=
  ⟨fun _ _ _ _ _ h1 h2 h3 hmap => rscore_four_asc h1 h2 h3 hmap,
   fun _ _ h _ _ hi hj hr => rscore_antitone h hi hj hr⟩

theorem recency_quartile_inversion_witness :
    R_Score ms4R = .ok [4, 3, 2, 1] :=
  recency_quartile_inversion.1 ms4R 1 2 3 4 (by decide) (by decide) (by decide) rfl

/-- C9: with frequency and monetary equal, strictly smaller recency never
gets a strictly smaller recency score. -/
theorem rscore_monotone_recency (ms : List CustomerMetrics) (rs : List Nat)
    (h : R_Score ms = .ok rs) (i j : Nat) (hi : i < ms.length) (hj : j < ms.length)
    (hf : (ms.getD i mZero).frequency = (ms.getD j mZero).frequency)
    (hm : (ms.getD i mZero).monetary = (ms.getD j mZero).monetary)
    (hr : (ms.getD i mZero).recencyDays < (ms.getD j mZero).recencyDays) :
    rs.getD j 0 ≤ rs.getD i 0 :=
  rscore_antitone h hi hj hr

lemma rscore_ms4R : R_Score ms4R = .ok [4, 3, 2, 1] :=
  rscore_four_asc (a := 1) (b := 2) (c := 3) (d := 4) (by decide) (by decide) (by decide) rfl

theorem rscore_monotone_recency_witness :
    R_Score ms4R = .ok [4, 3, 2, 1] ∧ [4, 3, 2, 1].getD 1 0 ≤ [4, 3, 2, 1].getD 0 0 :=
  ⟨rscore_ms4R,
   rscore_monotone_recency ms4R [4, 3, 2, 1] rscore_ms4R 0 1 (by decide) (by decide)
     (by decide) rfl (by decide)⟩

/-! ### Degenerate distributions (C5) -/

lemma qcutEdges_four_const (c : ℚ) : qcutEdges [c, c, c, c] = some ⟨c, c, c, c, c⟩ := by
  obtain ⟨q0, q1, q2, q3, q4⟩ := quantile_four (le_refl c) (le_refl c) (le_refl c)
  rw [qcutEdges]
  simp only [List.isEmpty_cons, Bool.false_eq_true, if_false, q0, q1, q2, q3, q4]
  norm_num

lemma edgesOK_const_false (c : ℚ) : edgesOK ⟨c, c, c, c, c⟩ = false := by
  simp [edgesOK]

lemma isEmpty_false_of_ne_nil {α : Type} {l : List α} (h : l ≠ []) : l.isEmpty = false := by
  cases l with
  | nil => exact absurd rfl h
  | cons a t => rfl

lemma rankFirstN_length (xs : List ℚ) : (rankFirstN xs).length = xs.length := by
  rw [rankFirstN, List.length_map, List.length_range]

lemma rankFirst_length (xs : List ℚ) : (rankFirst xs).length = xs.length := by
  rw [rankFirst, List.length_map, rankFirstN_length]

lemma isEmpty_false_of_length_ne_zero {α : Type} {l : List α} (h : l.length ≠ 0) :
    l.isEmpty = false := by
  cases l with
  | nil => exact absurd rfl h
  | cons a t => rfl

/-- The first-seen rank of a constant series is `[1, 2, ..., n]`. -/
lemma rankFirstN_const (c : ℚ) (n : Nat) :
    rankFirstN (List.replicate n c) = List.range' 1 n := by
  rw [rankFirstN, List.length_replicate, List.range'_eq_map_range]
  apply List.map_congr_left
  intro i hi
  rw [List.mem_range] at hi
  rw [rankOf]
  have hget : (List.replicate n c).getD i 0 = c := by
    rw [List.getD_eq_getElem?_getD, List.getElem?_replicate, if_pos hi]
    rfl
  rw [hget]
  have hlt : (List.replicate n c).countP (fun y => decide (y < c)) = 0 := by
    rw [List.countP_eq_zero]
    intro a ha
    rw [List.eq_of_mem_replicate ha]
    simp
  have htake : (List.replicate n c).take i = List.replicate i c := by
    rw [List.take_replicate]
    congr 1
    omega
  have heq : (List.replicate i c).countP (fun y => decide (y = c)) = i := by
    have : ∀ a ∈ List.replicate i c, (fun y => decide (y = c)) a = true := by
      intro a ha
      rw [List.eq_of_mem_replicate ha]
      simp
    rw [List.countP_eq_length.mpr this, List.length_replicate]
  rw [hlt, htake, heq]

lemma rscore_msPair : R_Score msPair = .ok [1, 4] := by
  rw [R_Score]
  have hcomp : (msPair.map fun m => (m.recencyDays : ℚ)) = [(11 : ℚ), 1] := by
    norm_num [msPair]
  rw [hcomp, qcut_pair_desc rLabels (by norm_num)]
  rfl

lemma fscore_msPair : F_Score msPair = .ok [1, 4] := by
  rw [F_Score]
  have hcomp : (msPair.map fun m => (m.frequency : ℚ)) = List.replicate 2 1 := by
    norm_num [msPair, List.replicate]
  have hrank : rankFirst (List.replicate 2 (1 : ℚ)) = [1, 2] := by
    rw [rankFirst, rankFirstN_const]
    norm_num [List.range']
  rw [hcomp, hrank, qcut_pair_asc fmLabels (by norm_num)]
  rfl

lemma mscore_msPair : M_Score msPair = .ok [1, 4] := by
  rw [M_Score]
  rw [show msPair.map (·.monetary) = [(15 : ℚ), 1000] from rfl]
  rw [qcut_pair_asc fmLabels (by norm_num)]
  rfl

/-- C5 counterexample: on a two-customer population with distinct values the
quantile scorer does NOT fail — the five interpolated edges are already
distinct, so `pd.qcut` succeeds and scores are emitted for both customers. -/
theorem two_customer_population_scores :
    rfmScores msPair = .ok [⟨1, 1, 1, 1⟩, ⟨2, 4, 4, 4⟩] := by
  simp only [rfmScores, rscore_msPair, fscore_msPair, mscore_msPair]
  rfl

/-- C5 (amended): whenever the quantile edges of some metric collapse (fewer
than 4 distinct cut points) on a non-empty population, the scorer fails with
the degenerate-distribution error and no scores are emitted. -/
theorem degenerate_metric_fails (ms : List CustomerMetrics) (hne : ms ≠ [])
    (hdeg : (∃ E, qcutEdges (ms.map fun m => (m.recencyDays : ℚ)) = some E ∧ edgesOK E = false) ∨
      (∃ E, qcutEdges (rankFirst (ms.map fun m => (m.frequency : ℚ))) = some E ∧ edgesOK E = false) ∨
      (∃ E, qcutEdges (ms.map (·.monetary)) = some E ∧ edgesOK E = false)) :
    rfmScores ms = .error .degenerateDistribution := by
  have hmsne : ms.isEmpty = false := isEmpty_false_of_ne_nil hne
  have hRne : (ms.map fun m => (m.recencyDays : ℚ)).isEmpty = false := by
    cases ms with
    | nil => exact absurd rfl hne
    | cons a t => rfl
  have hMne : (ms.map (·.monetary)).isEmpty = false := by
    cases ms with
    | nil => exact absurd rfl hne
    | cons a t => rfl
  have hFne : (rankFirst (ms.map fun m => (m.frequency : ℚ))).isEmpty = false := by
    apply isEmpty_false_of_length_ne_zero
    rw [rankFirst_length, List.length_map]
    cases ms with
    | nil => exact absurd rfl hne
    | cons a t => simp
  cases hR : R_Score ms with
  | error e =>
    have he : e = .degenerateDistribution := by
      rw [R_Score] at hR
      exact qcut_error_elim hRne hR
    rw [he] at hR
    simp only [rfmScores, hR]
  | ok rs =>
    cases hF : F_Score ms with
    | error e =>
      have he : e = .degenerateDistribution := by
        rw [F_Score] at hF
        exact qcut_error_elim hFne hF
      rw [he] at hF
      simp only [rfmScores, hR, hF]
    | ok fs =>
      cases hM : M_Score ms with
      | error e =>
        have he : e = .degenerateDistribution := by
          rw [M_Score] at hM
          exact qcut_error_elim hMne hM
        rw [he] at hM
        simp only [rfmScores, hR, hF, hM]
      | ok mcs =>
        exfalso
        rcases hdeg with ⟨E, hE, hfalse⟩ | ⟨E, hE, hfalse⟩ | ⟨E, hE, hfalse⟩
        · rw [R_Score] at hR
          rw [qcut_ok_edges_true hR hE] at hfalse
          cases hfalse
        · rw [F_Score] at hF
          rw [qcut_ok_edges_true hF hE] at hfalse
          cases hfalse
        · rw [M_Score] at hM
          rw [qcut_ok_edges_true hM hE] at hfalse
          cases hfalse

theorem degenerate_metric_fails_witness :
    msDeg ≠ [] ∧ rfmScores msDeg = .error .degenerateDistribution := by
  have hne : msDeg ≠ [] := List.cons_ne_nil _ _
  refine ⟨hne, degenerate_metric_fails msDeg hne (Or.inr (Or.inr ⟨⟨7, 7, 7, 7, 7⟩, ?_, edgesOK_const_false 7⟩))⟩
  rw [show msDeg.map (·.monetary) = [(7 : ℚ), 7, 7, 7] from rfl]
  exact qcutEdges_four_const 7

/-! ### The classifier (C2), empty input (C6) and determinism (C7) -/

/-- C2: the segment code is the 3-digit concatenation R-F-M, and the tier
label follows the exact first-match precedence 444-Champions / r=4-Loyal /
r=1-At Risk / Others. -/
theorem classifier_precedence (r f m : Nat)
    (hr1 : 1 ≤ r) (hr4 : r ≤ 4) (hf1 : 1 ≤ f) (hf4 : f ≤ 4) (hm1 : 1 ≤ m) (hm4 : m ≤ 4) :
    (RFM_Segment r f m).data = [Nat.digitChar r, Nat.digitChar f, Nat.digitChar m] ∧
    RFM_Level (RFM_Segment r f m) =
      (if r = 4 ∧ f = 4 ∧ m = 4 then "Champions"
       else if r = 4 then "Loyal"
       else if r = 1 then "At Risk"
       else "Others") := by
  interval_cases r <;> interval_cases f <;> interval_cases m <;> exact ⟨rfl, rfl⟩

theorem classifier_precedence_witness :
    RFM_Level (RFM_Segment 4 1 1) = "Loyal" := by
  have h := classifier_precedence 4 1 1 (by decide) (by decide) (by decide)
    (by decide) (by decide) (by decide)
  simpa using h.2

/-- C6: the empty transaction sequence yields an empty population, whose
quantile edges are undefined: the pipeline fails without output. -/
theorem pipeline_empty_input :
    pipeline ([] : List TransactionRecord) = .error .emptyInput := rfl

/-- C7: the pipeline is a pure function of the input population — two runs
on the same input that both succeed return identical segment sequences. -/
theorem pipeline_deterministic (ts : List TransactionRecord) (segs segs' : List Segment)
    (h : pipeline ts = .ok segs) (h' : pipeline ts = .ok segs') : segs = segs' := by
  rw [h] at h'
  injection h'

lemma aggCustomer_ts4_one : aggCustomer ts4 4 1 = ⟨1, 1, 1, 1⟩ := by
  have hsum : (([⟨1, 1, 3, 1, 1⟩] : List TransactionRecord).map lineTotal).sum = (1 : ℚ) := by
    norm_num [lineTotal]
  rw [aggCustomer, show custTxns ts4 1 = [⟨1, 1, 3, 1, 1⟩] from rfl, hsum]
  rfl

lemma aggCustomer_ts4_two : aggCustomer ts4 4 2 = ⟨2, 2, 1, 2⟩ := by
  have hsum : (([⟨2, 2, 2, 1, 2⟩] : List TransactionRecord).map lineTotal).sum = (2 : ℚ) := by
    norm_num [lineTotal]
  rw [aggCustomer, show custTxns ts4 2 = [⟨2, 2, 2, 1, 2⟩] from rfl, hsum]
  rfl

lemma aggCustomer_ts4_three : aggCustomer ts4 4 3 = ⟨3, 3, 1, 3⟩ := by
  have hsum : (([⟨3, 3, 1, 1, 3⟩] : List TransactionRecord).map lineTotal).sum = (3 : ℚ) := by
    norm_num [lineTotal]
  rw [aggCustomer, show custTxns ts4 3 = [⟨3, 3, 1, 1, 3⟩] from rfl, hsum]
  rfl

lemma aggCustomer_ts4_four : aggCustomer ts4 4 4 = ⟨4, 4, 1, 4⟩ := by
  have hsum : (([⟨4, 4, 0, 1, 4⟩] : List TransactionRecord).map lineTotal).sum = (4 : ℚ) := by
    norm_num [lineTotal]
  rw [aggCustomer, show custTxns ts4 4 = [⟨4, 4, 0, 1, 4⟩] from rfl, hsum]
  rfl

lemma rfm_ts4 : rfm ts4 = rfmW4 := by
  rw [rfm, show reference_date ts4 = 4 from rfl, show customerIds ts4 = [1, 2, 3, 4] from rfl]
  simp only [List.map_cons, List.map_nil]
  rw [aggCustomer_ts4_one, aggCustomer_ts4_two, aggCustomer_ts4_three, aggCustomer_ts4_four]
  rfl

lemma rscore_rfmW4 : R_Score rfmW4 = .ok [4, 3, 2, 1] := by
  have hmap : (rfmW4.map fun m => (m.recencyDays : ℚ)) = [(1 : ℚ), 2, 3, 4] := by
    norm_num [rfmW4]
  rw [R_Score, hmap, qcut_four_asc rLabels (by norm_num) (by norm_num) (by norm_num)]
  rfl

lemma fscore_rfmW4 : F_Score rfmW4 = .ok [1, 2, 3, 4] := by
  rw [F_Score]
  have hmap : (rfmW4.map fun m => (m.frequency : ℚ)) = List.replicate 4 1 := by
    norm_num [rfmW4, List.replicate]
  have hrank : rankFirst (List.replicate 4 (1 : ℚ)) = [1, 2, 3, 4] := by
    rw [rankFirst, rankFirstN_const]
    norm_num [List.range']
  rw [hmap, hrank, qcut_four_asc fmLabels (by norm_num) (by norm_num) (by norm_num)]
  rfl

lemma mscore_rfmW4 : M_Score rfmW4 = .ok [1, 2, 3, 4] := by
  rw [M_Score, show rfmW4.map (·.monetary) = [(1 : ℚ), 2, 3, 4] from rfl,
    qcut_four_asc fmLabels (by norm_num) (by norm_num) (by norm_num)]
  rfl

lemma rfmScores_rfmW4 : rfmScores rfmW4 =
    .ok [⟨1, 4, 1, 1⟩, ⟨2, 3, 2, 2⟩, ⟨3, 2, 3, 3⟩, ⟨4, 1, 4, 4⟩] := by
  simp only [rfmScores, rscore_rfmW4, fscore_rfmW4, mscore_rfmW4]
  rfl

lemma pipeline_ts4 : pipeline ts4 = .ok segs4 := by
  rw [pipeline, rfm_ts4, rfmScores_rfmW4]
  rfl

theorem pipeline_deterministic_witness :
    pipeline ts4 = Except.ok segs4 ∧ segs4 = segs4 :=
  ⟨pipeline_ts4, pipeline_deterministic ts4 segs4 segs4 pipeline_ts4 pipeline_ts4⟩

/-! ### `rank(method='first')` produces a permutation of 1..n -/

lemma getD_eq_getElem' {α : Type} (l : List α) (d : α) {i : Nat} (h : i < l.length) :
    l.getD i d = l[i] := by
  rw [List.getD_eq_getElem?_getD, List.getElem?_eq_getElem h]
  rfl

lemma countP_add_le {α : Type} (p q t : α → Bool) (l : List α)
    (hpq : ∀ a, ¬(p a = true ∧ q a = true))
    (hp : ∀ a, p a = true → t a = true) (hq : ∀ a, q a = true → t a = true) :
    l.countP p + l.countP q ≤ l.countP t := by
  induction l with
  | nil => simp
  | cons x l ih =>
    by_cases hpx : p x = true
    · by_cases hqx : q x = true
      · exact absurd ⟨hpx, hqx⟩ (hpq x)
      · rw [List.countP_cons_of_pos _ _ hpx, List.countP_cons_of_neg _ _ hqx,
          List.countP_cons_of_pos _ _ (hp x hpx)]
        omega
    · by_cases hqx : q x = true
      · rw [List.countP_cons_of_neg _ _ hpx, List.countP_cons_of_pos _ _ hqx,
          List.countP_cons_of_pos _ _ (hq x hqx)]
        omega
      · rw [List.countP_cons_of_neg _ _ hpx, List.countP_cons_of_neg _ _ hqx]
        refine le_trans ih ?_
        rw [List.countP_cons]
        exact Nat.le_add_right _ _

lemma countP_split (p : ℚ → Bool) (xs : List ℚ) {i : Nat} (h : i < xs.length) :
    xs.countP p = (xs.take i).countP p +
      ((xs.drop (i + 1)).countP p + if p xs[i] then 1 else 0) := by
  conv_lhs => rw [← List.take_append_drop i xs]
  rw [List.countP_append, List.drop_eq_getElem_cons h, List.countP_cons]

lemma rankOf_pos (xs : List ℚ) (i : Nat) : 1 ≤ rankOf xs i := by
  rw [rankOf]
  omega

lemma rankOf_le_length {xs : List ℚ} {i : Nat} (h : i < xs.length) :
    rankOf xs i ≤ xs.length := by
  rw [rankOf]
  have hsplit := countP_split (fun y => decide (y < xs.getD i 0)) xs h
  have hself : (if (fun y => decide (y < xs.getD i 0)) xs[i] then 1 else 0) = 0 := by
    rw [← getD_eq_getElem' xs 0 h]
    simp
  rw [hself] at hsplit
  have hpair : (xs.take i).countP (fun y => decide (y < xs.getD i 0)) +
      (xs.take i).countP (fun y => decide (y = xs.getD i 0)) ≤
      (xs.take i).countP (fun _ => true) := by
    apply countP_add_le
    · rintro a ⟨ha, hb⟩
      rw [decide_eq_true_eq] at ha hb
      rw [hb] at ha
      exact lt_irrefl _ ha
    · intro a _; rfl
    · intro a _; rfl
  have hlen : (xs.take i).countP (fun _ => true) = i := by
    simp only [List.countP_true, List.length_take]
    omega
  have hdrop : (xs.drop (i + 1)).countP (fun y => decide (y < xs.getD i 0)) ≤
      xs.length - (i + 1) := by
    refine le_trans (List.countP_le_length _) ?_
    rw [List.length_drop]
  omega

lemma rankOf_lt_of_val_lt {xs : List ℚ} {i j : Nat} (hi : i < xs.length) (hj : j < xs.length)
    (hv : xs.getD i 0 < xs.getD j 0) : rankOf xs i < rankOf xs j := by
  rw [rankOf, rankOf]
  have hAj : xs.countP (fun y => decide (y < xs.getD i 0)) +
      xs.countP (fun y => decide (y = xs.getD i 0)) ≤
      xs.countP (fun y => decide (y < xs.getD j 0)) := by
    apply countP_add_le
    · rintro a ⟨ha, hb⟩
      rw [decide_eq_true_eq] at ha hb
      rw [hb] at ha
      exact lt_irrefl _ ha
    · intro a ha
      rw [decide_eq_true_eq] at ha ⊢
      linarith
    · intro a ha
      rw [decide_eq_true_eq] at ha ⊢
      rw [ha]
      exact hv
  have hEQ := countP_split (fun y => decide (y = xs.getD i 0)) xs hi
  have hself : (if (fun y => decide (y = xs.getD i 0)) xs[i] then 1 else 0) = 1 := by
    rw [← getD_eq_getElem' xs 0 hi]
    simp
  rw [hself] at hEQ
  have hBi : (xs.take i).countP (fun y => decide (y = xs.getD i 0)) ≤
      xs.countP (fun y => decide (y = xs.getD i 0)) := by
    omega
  omega

lemma rankOf_lt_of_val_eq {xs : List ℚ} {i j : Nat} (hij : i < j) (hj : j < xs.length)
    (hv : xs.getD i 0 = xs.getD j 0) : rankOf xs i < rankOf xs j := by
  have hi : i < xs.length := lt_trans hij hj
  rw [rankOf, rankOf, hv]
  have hj' : j = i + (j - i) := by omega
  have hsplit : xs.take j = xs.take i ++ (xs.drop i).take (j - i) := by
    conv_lhs => rw [hj']
    exact List.take_add xs i (j - i)
  rw [hsplit, List.countP_append]
  have hdrop : xs.drop i = xs[i] :: xs.drop (i + 1) := List.drop_eq_getElem_cons hi
  have hji : j - i = (j - i - 1) + 1 := by omega
  rw [hdrop, hji, List.take_succ_cons, List.countP_cons_of_pos]
  · omega
  · rw [← getD_eq_getElem' xs 0 hi, hv]
    simp

lemma rankOf_ne {xs : List ℚ} {i j : Nat} (hi : i < xs.length) (hj : j < xs.length)
    (hne : i ≠ j) : rankOf xs i ≠ rankOf xs j := by
  rcases Nat.lt_or_ge i j with hij | hij
  · rcases lt_trichotomy (xs.getD i 0) (xs.getD j 0) with hv | hv | hv
    · exact (rankOf_lt_of_val_lt hi hj hv).ne
    · exact (rankOf_lt_of_val_eq hij hj hv).ne
    · exact (rankOf_lt_of_val_lt hj hi hv).ne'
  · have hij' : j < i := by omega
    rcases lt_trichotomy (xs.getD i 0) (xs.getD j 0) with hv | hv | hv
    · exact (rankOf_lt_of_val_lt hi hj hv).ne
    · exact (rankOf_lt_of_val_eq hij' hi hv.symm).ne'
    · exact (rankOf_lt_of_val_lt hj hi hv).ne'

lemma rankFirstN_nodup (xs : List ℚ) : (rankFirstN xs).Nodup := by
  rw [rankFirstN]
  refine List.Nodup.map_on ?_ (List.nodup_range _)
  intro x hx y hy hf
  rw [List.mem_range] at hx hy
  by_contra hne
  exact rankOf_ne hx hy hne hf

lemma rankFirstN_perm (xs : List ℚ) : List.Perm (rankFirstN xs) (List.range' 1 xs.length) := by
  apply List.Subperm.perm_of_length_le
  · apply List.subperm_of_subset (rankFirstN_nodup xs)
    intro x hx
    rw [rankFirstN] at hx
    obtain ⟨i, hi, rfl⟩ := List.mem_map.mp hx
    rw [List.mem_range] at hi
    rw [List.mem_range'_1]
    refine ⟨rankOf_pos xs i, ?_⟩
    have := rankOf_le_length hi
    omega
  · rw [List.length_range', rankFirstN, List.length_map, List.length_range]

/-! ### Quantile edges over the ranks 1..n -/

lemma sorted_range'_cast (s n : Nat) :
    List.Sorted (· ≤ ·) ((List.range' s n).map (fun r : Nat => (r : ℚ))) :=
  List.Pairwise.map _ (fun a b (hab : a < b) => by exact_mod_cast hab.le)
    (List.pairwise_lt_range' s n)

lemma sortedAsc_rankFirst (xs : List ℚ) :
    sortedAsc (rankFirst xs) = (List.range' 1 xs.length).map (fun r : Nat => (r : ℚ)) := by
  have hperm : List.Perm (sortedAsc (rankFirst xs))
      ((List.range' 1 xs.length).map (fun r : Nat => (r : ℚ))) := by
    refine (List.perm_insertionSort _ _).trans ?_
    rw [rankFirst]
    exact (rankFirstN_perm xs).map _
  exact List.eq_of_perm_of_sorted hperm (List.sorted_insertionSort _ _)
    (sorted_range'_cast 1 xs.length)

lemma range'_map_cast_getD (s n i : Nat) (d : ℚ) (h : i < n) :
    ((List.range' s n).map (fun r : Nat => (r : ℚ))).getD i d = ((s + i : Nat) : ℚ) := by
  induction n generalizing s i with
  | zero => omega
  | succ m ih =>
    rw [List.range']
    cases i with
    | zero => simp
    | succ k =>
      simp only [List.map_cons, List.getD_cons_succ]
      rw [ih (s + 1) k (by omega)]
      congr 1
      omega

lemma quantile_rankFirst (xs : List ℚ) (p : ℚ) (h1 : 1 ≤ xs.length)
    (h0 : 0 ≤ p) (hp : p ≤ 1) :
    quantile (rankFirst xs) p = 1 + p * ((xs.length : ℚ) - 1) := by
  have hn1 : (1 : ℚ) ≤ (xs.length : ℚ) := by exact_mod_cast h1
  simp only [quantile, sortedAsc_rankFirst, rankFirst_length]
  have hh0 : 0 ≤ p * ((xs.length : ℚ) - 1) := mul_nonneg h0 (by linarith)
  have hh1 : p * ((xs.length : ℚ) - 1) ≤ (xs.length : ℚ) - 1 := by
    have := mul_le_mul_of_nonneg_right hp (by linarith : (0 : ℚ) ≤ (xs.length : ℚ) - 1)
    linarith
  have hfl0 : 0 ≤ ⌊p * ((xs.length : ℚ) - 1)⌋ := Int.floor_nonneg.mpr hh0
  have hcast : (((⌊p * ((xs.length : ℚ) - 1)⌋).toNat : Nat) : ℚ) = (⌊p * ((xs.length : ℚ) - 1)⌋ : ℚ) := by
    exact_mod_cast congrArg (fun z : ℤ => (z : ℚ)) (Int.toNat_of_nonneg hfl0)
  have hi_le : (((⌊p * ((xs.length : ℚ) - 1)⌋).toNat : Nat) : ℚ) ≤ p * ((xs.length : ℚ) - 1) := by
    rw [hcast]
    exact Int.floor_le _
  have hi_lt_n : (⌊p * ((xs.length : ℚ) - 1)⌋).toNat < xs.length := by
    have hq : (((⌊p * ((xs.length : ℚ) - 1)⌋).toNat : Nat) : ℚ) < (xs.length : ℚ) := by
      calc (((⌊p * ((xs.length : ℚ) - 1)⌋).toNat : Nat) : ℚ) ≤ p * ((xs.length : ℚ) - 1) := hi_le
        _ ≤ (xs.length : ℚ) - 1 := hh1
        _ < (xs.length : ℚ) := by linarith
    exact_mod_cast hq
  by_cases hend : (⌊p * ((xs.length : ℚ) - 1)⌋).toNat + 1 < xs.length
  · rw [range'_map_cast_getD 1 xs.length _ _ hi_lt_n, range'_map_cast_getD 1 xs.length _ _ hend]
    push_cast
    ring
  · have hieq : (⌊p * ((xs.length : ℚ) - 1)⌋).toNat + 1 = xs.length := by omega
    have hiq : (((⌊p * ((xs.length : ℚ) - 1)⌋).toNat : Nat) : ℚ) = (xs.length : ℚ) - 1 := by
      have : ((((⌊p * ((xs.length : ℚ) - 1)⌋).toNat : Nat) + 1 : Nat) : ℚ) = (xs.length : ℚ) := by
        exact_mod_cast congrArg (fun k : Nat => (k : ℚ)) hieq
      push_cast at this
      linarith
    have hhe : p * ((xs.length : ℚ) - 1) = (xs.length : ℚ) - 1 := by
      have hge := hi_le
      rw [hiq] at hge
      linarith
    rw [range'_map_cast_getD 1 xs.length _ _ hi_lt_n, List.getD_eq_default]
    · have hfrac : p * ((xs.length : ℚ) - 1) -
          ((⌊p * ((xs.length : ℚ) - 1)⌋.toNat : Nat) : ℚ) = 0 := by
        rw [hiq, hhe]
        ring
      rw [hfrac, zero_mul, add_zero]
      have hfin : ((1 + ⌊p * ((xs.length : ℚ) - 1)⌋.toNat : Nat) : ℚ) =
          1 + ((⌊p * ((xs.length : ℚ) - 1)⌋.toNat : Nat) : ℚ) := by
        push_cast
        ring
      rw [hfin, hiq, hhe]
    · rw [List.length_map, List.length_range']
      omega

/-! ### Frequency scoring always succeeds (C4, C10) -/

lemma fscore_ok {ms : List CustomerMetrics} (h2 : 2 ≤ ms.length) :
    F_Score ms = .ok ((rankFirst (ms.map fun m => (m.frequency : ℚ))).map
      (fun v => fmLabels (binIdx
        ⟨1, 1 + 1/4 * ((ms.length : ℚ) - 1), 1 + 1/2 * ((ms.length : ℚ) - 1),
         1 + 3/4 * ((ms.length : ℚ) - 1), (ms.length : ℚ)⟩ v))) := by
  have hlen : (ms.map fun m => (m.frequency : ℚ)).length = ms.length := List.length_map _ _
  have h1 : 1 ≤ (ms.map fun m => (m.frequency : ℚ)).length := by
    rw [hlen]
    omega
  have hnq : (2 : ℚ) ≤ (ms.length : ℚ) := by exact_mod_cast h2
  have hne : (rankFirst (ms.map fun m => (m.frequency : ℚ))).isEmpty = false :=
    isEmpty_false_of_length_ne_zero (by rw [rankFirst_length, hlen]; omega)
  have e0 : quantile (rankFirst (ms.map fun m => (m.frequency : ℚ))) 0 = 1 := by
    rw [quantile_rankFirst _ _ h1 (by norm_num) (by norm_num), hlen]
    ring
  have e1 : quantile (rankFirst (ms.map fun m => (m.frequency : ℚ))) (1/4) =
      1 + 1/4 * ((ms.length : ℚ) - 1) := by
    rw [quantile_rankFirst _ _ h1 (by norm_num) (by norm_num), hlen]
  have e2 : quantile (rankFirst (ms.map fun m => (m.frequency : ℚ))) (1/2) =
      1 + 1/2 * ((ms.length : ℚ) - 1) := by
    rw [quantile_rankFirst _ _ h1 (by norm_num) (by norm_num), hlen]
  have e3 : quantile (rankFirst (ms.map fun m => (m.frequency : ℚ))) (3/4) =
      1 + 3/4 * ((ms.length : ℚ) - 1) := by
    rw [quantile_rankFirst _ _ h1 (by norm_num) (by norm_num), hlen]
  have e4 : quantile (rankFirst (ms.map fun m => (m.frequency : ℚ))) 1 = (ms.length : ℚ) := by
    rw [quantile_rankFirst _ _ h1 (by norm_num) (by norm_num), hlen]
    ring
  have hok : edgesOK ⟨1, 1 + 1/4 * ((ms.length : ℚ) - 1), 1 + 1/2 * ((ms.length : ℚ) - 1),
      1 + 3/4 * ((ms.length : ℚ) - 1), (ms.length : ℚ)⟩ = true := by
    simp only [edgesOK, Bool.and_eq_true, decide_eq_true_eq]
    refine ⟨⟨⟨?_, ?_⟩, ?_⟩, ?_⟩ <;> linarith
  rw [F_Score, qcut, qcutEdges_some hne]
  dsimp only
  rw [e0, e1, e2, e3, e4, if_pos hok]

/-- C10: frequency scoring is immune to ties — the rank pre-step gives `n`
pairwise distinct ranks, whose quartile edges are always distinct for
`n ≥ 4`; recency and monetary, cut on raw values, can still degenerate. -/
theorem fscore_never_degenerate :
    (∀ ms : List CustomerMetrics, 4 ≤ ms.length → ∃ fs, F_Score ms = .ok fs) ∧
    R_Score msDegR = .error .degenerateDistribution ∧
    M_Score msDeg = .error .degenerateDistribution := by
  refine ⟨fun ms h4 => ⟨_, fscore_ok (by omega)⟩, ?_, ?_⟩
  · rw [R_Score]
    have hmap : (msDegR.map fun m => (m.recencyDays : ℚ)) = [(5 : ℚ), 5, 5, 5] := by
      norm_num [msDegR]
    rw [hmap]
    exact qcut_four_const rLabels 5
  · rw [M_Score, show msDeg.map (·.monetary) = [(7 : ℚ), 7, 7, 7] from rfl]
    exact qcut_four_const fmLabels 7

theorem fscore_never_degenerate_witness :
    4 ≤ rfmW4.length ∧ ∃ fs, F_Score rfmW4 = .ok fs :=
  ⟨by decide, fscore_never_degenerate.1 rfmW4 (by decide)⟩

/-- C4: frequency scoring first replaces values by pairwise-distinct
first-seen ranks (a permutation of 1..N) and only then cuts: the cut always
succeeds, scores are monotone in rank, the lowest rank gets fScore 1 and the
highest gets fScore 4. -/
theorem fscore_rank_then_cut (ms : List CustomerMetrics) (h4 : 4 ≤ ms.length) :
    (rankFirstN (ms.map fun m => (m.frequency : ℚ))).Nodup ∧
    List.Perm (rankFirstN (ms.map fun m => (m.frequency : ℚ))) (List.range' 1 ms.length) ∧
    ∃ fs, F_Score ms = .ok fs ∧ fs.length = ms.length ∧
      (∀ i j, i < ms.length → j < ms.length →
        (rankFirstN (ms.map fun m => (m.frequency : ℚ))).getD i 0 ≤
          (rankFirstN (ms.map fun m => (m.frequency : ℚ))).getD j 0 →
        fs.getD i 0 ≤ fs.getD j 0) ∧
      (∀ i, i < ms.length →
        ((rankFirstN (ms.map fun m => (m.frequency : ℚ))).getD i 0 = 1 → fs.getD i 0 = 1) ∧
        ((rankFirstN (ms.map fun m => (m.frequency : ℚ))).getD i 0 = ms.length →
          fs.getD i 0 = 4)) := by
  have hlen : (ms.map fun m => (m.frequency : ℚ)).length = ms.length := List.length_map _ _
  have hperm : List.Perm (rankFirstN (ms.map fun m => (m.frequency : ℚ)))
      (List.range' 1 ms.length) := by
    have h := rankFirstN_perm (ms.map fun m => (m.frequency : ℚ))
    rwa [hlen] at h
  have hok := fscore_ok (show 2 ≤ ms.length by omega)
  have hnq : (4 : ℚ) ≤ (ms.length : ℚ) := by exact_mod_cast h4
  have hfs_getD : ∀ i, i < ms.length →
      ((rankFirst (ms.map fun m => (m.frequency : ℚ))).map
        (fun v => fmLabels (binIdx
          ⟨1, 1 + 1/4 * ((ms.length : ℚ) - 1), 1 + 1/2 * ((ms.length : ℚ) - 1),
           1 + 3/4 * ((ms.length : ℚ) - 1), (ms.length : ℚ)⟩ v))).getD i 0 =
      fmLabels (binIdx
        ⟨1, 1 + 1/4 * ((ms.length : ℚ) - 1), 1 + 1/2 * ((ms.length : ℚ) - 1),
         1 + 3/4 * ((ms.length : ℚ) - 1), (ms.length : ℚ)⟩
        (((rankFirstN (ms.map fun m => (m.frequency : ℚ))).getD i 0 : Nat) : ℚ)) := by
    intro i hi
    rw [rankFirst, List.map_map]
    exact getD_map _ 0 0 _ i (by rw [rankFirstN_length, hlen]; omega)
  refine ⟨rankFirstN_nodup _, hperm, _, hok, ?_, ?_, ?_⟩
  · rw [List.length_map, rankFirst_length, hlen]
  · intro i j hi hj hr
    rw [hfs_getD i hi, hfs_getD j hj]
    simp only [fmLabels]
    have hm := binIdx_mono
      ⟨1, 1 + 1/4 * ((ms.length : ℚ) - 1), 1 + 1/2 * ((ms.length : ℚ) - 1),
       1 + 3/4 * ((ms.length : ℚ) - 1), (ms.length : ℚ)⟩
      (show (((rankFirstN (ms.map fun m => (m.frequency : ℚ))).getD i 0 : Nat) : ℚ) ≤
        (((rankFirstN (ms.map fun m => (m.frequency : ℚ))).getD j 0 : Nat) : ℚ) by
          exact_mod_cast hr)
    omega
  · intro i hi
    constructor
    · intro hr1
      rw [hfs_getD i hi, hr1, Nat.cast_one, binIdx, if_pos (by linarith)]
      rfl
    · intro hrn
      rw [hfs_getD i hi, hrn, binIdx,
        if_neg (by intro hc; linarith), if_neg (by intro hc; linarith),
        if_neg (by intro hc; linarith)]
      rfl

theorem fscore_rank_then_cut_witness :
    4 ≤ rfmW4.length ∧ (rankFirstN (rfmW4.map fun m => (m.frequency : ℚ))).Nodup :=
  ⟨by decide, (fscore_rank_then_cut rfmW4 (by decide)).1⟩

/-! ### Customer ids are preserved end to end (C8) -/

lemma map_eq_range_map {α β : Type} (f : α → β) (d : α) (l : List α) :
    (List.range l.length).map (fun i => f (l.getD i d)) = l.map f := by
  induction l with
  | nil => simp
  | cons x t ih =>
    rw [List.length_cons, List.range_succ_eq_map, List.map_cons, List.map_map]
    have htail : ((fun i => f ((x :: t).getD i d)) ∘ Nat.succ) = fun i => f (t.getD i d) := by
      funext i
      simp [Function.comp]
    rw [htail, ih, List.map_cons]
    rfl

lemma rfm_map_customerId (ts : List TransactionRecord) :
    (rfm ts).map (·.customerId) = customerIds ts := by
  rw [rfm, List.map_map]
  show List.map (fun c : Nat => c) (customerIds ts) = customerIds ts
  simp

lemma nodup_customerIds (ts : List TransactionRecord) : (customerIds ts).Nodup :=
  ((List.perm_insertionSort _ _).nodup_iff).mpr (List.nodup_dedup _)

lemma mem_customerIds {ts : List TransactionRecord} {c : Nat} :
    c ∈ customerIds ts ↔ c ∈ ts.map (·.customerId) :=
  ((List.perm_insertionSort _ _).mem_iff).trans List.mem_dedup

lemma rfmScores_ids {ms : List CustomerMetrics} {ss : List RFMScore}
    (h : rfmScores ms = .ok ss) : ss.map (·.customerId) = ms.map (·.customerId) := by
  cases hR : R_Score ms with
  | error e =>
    simp only [rfmScores, hR] at h
    exact Except.noConfusion h
  | ok rs =>
    cases hF : F_Score ms with
    | error e =>
      simp only [rfmScores, hR, hF] at h
      exact Except.noConfusion h
    | ok fs =>
      cases hM : M_Score ms with
      | error e =>
        simp only [rfmScores, hR, hF, hM] at h
        exact Except.noConfusion h
      | ok mcs =>
        simp only [rfmScores, hR, hF, hM] at h
        rw [← Except.ok.inj h, List.map_map]
        exact map_eq_range_map (fun m : CustomerMetrics => m.customerId) ⟨0, 0, 0, 0⟩ ms

lemma segments_ids (ss : List RFMScore) :
    (segments ss).map (·.customerId) = ss.map (·.customerId) := by
  rw [segments, List.map_map]
  rfl

/-- C8: on success, the output segment sequence carries exactly the distinct
customer ids of the input transactions, each exactly once. -/
theorem pipeline_customer_ids (ts : List TransactionRecord) (segs : List Segment)
    (h : pipeline ts = .ok segs) :
    (segs.map (·.customerId)).Nodup ∧
    (∀ c, c ∈ segs.map (·.customerId) ↔ c ∈ ts.map (·.customerId)) ∧
    (∀ c, c ∈ ts.map (·.customerId) → (segs.map (·.customerId)).count c = 1) := by
  have hids : segs.map (·.customerId) = customerIds ts := by
    cases hS : rfmScores (rfm ts) with
    | error e =>
      rw [pipeline, hS] at h
      simp only [Except.map] at h
      exact Except.noConfusion h
    | ok ss =>
      rw [pipeline, hS] at h
      simp only [Except.map] at h
      have hsegs : segs = segments ss := (Except.ok.inj h).symm
      rw [hsegs, segments_ids, rfmScores_ids hS, rfm_map_customerId]
  rw [hids]
  refine ⟨nodup_customerIds ts, fun c => mem_customerIds, fun c hc => ?_⟩
  exact List.count_eq_one_of_mem (nodup_customerIds ts) (mem_customerIds.mpr hc)

theorem pipeline_customer_ids_witness :
    pipeline ts4 = Except.ok segs4 ∧ (segs4.map (·.customerId)).Nodup :=
  ⟨pipeline_ts4, (pipeline_customer_ids ts4 segs4 pipeline_ts4).1⟩

/-! ### The Customer Aggregator (C1) -/

lemma foldr_max_mem : ∀ (l : List Nat), l ≠ [] → l.foldr max 0 ∈ l := by
  intro l
  induction l with
  | nil => intro h; exact absurd rfl h
  | cons x t ih =>
    intro _
    cases t with
    | nil => simp
    | cons y u =>
      rw [List.foldr_cons]
      rcases Nat.le_total x ((y :: u).foldr max 0) with hle | hle
      · rw [max_eq_right hle]
        exact List.mem_cons_of_mem x (ih (by simp))
      · rw [max_eq_left hle]
        exact List.mem_cons_self x _

lemma le_foldr_max {l : List Nat} {x : Nat} (h : x ∈ l) : x ≤ l.foldr max 0 := by
  induction l with
  | nil => simp at h
  | cons y t ih =>
    rw [List.foldr_cons]
    rcases List.mem_cons.mp h with rfl | hmem
    · exact Nat.le_max_left _ _
    · exact le_trans (ih hmem) (Nat.le_max_right _ _)

/-- C1: on a non-empty input, `rfm` holds exactly one row per distinct
customer id; the reference date is one more than the global maximum invoice
date; and each row's recency, frequency and monetary fields agree with the
spec's formulas over that customer's transactions. -/
theorem rfm_aggregates (ts : List TransactionRecord) (hne : ts ≠ []) :
    ((rfm ts).map (·.customerId)).Nodup ∧
    (∀ c, c ∈ (rfm ts).map (·.customerId) ↔ c ∈ ts.map (·.customerId)) ∧
    (∃ t0 ∈ ts, reference_date ts = t0.invoiceDate + 1 ∧
      ∀ t ∈ ts, t.invoiceDate ≤ t0.invoiceDate) ∧
    ∀ m ∈ rfm ts,
      (∃ t ∈ ts, t.customerId = m.customerId ∧
        m.recencyDays = reference_date ts - t.invoiceDate ∧
        ∀ t' ∈ ts, t'.customerId = m.customerId → t'.invoiceDate ≤ t.invoiceDate) ∧
      m.frequency =
        ((ts.filter fun t => t.customerId == m.customerId).map (·.invoiceId)).toFinset.card ∧
      m.monetary = ((ts.filter fun t => t.customerId == m.customerId).map
        (fun t => (t.quantity : ℚ) * t.unitPrice)).sum := by
  refine ⟨?_, ?_, ?_, ?_⟩
  · rw [rfm_map_customerId]
    exact nodup_customerIds ts
  · intro c
    rw [rfm_map_customerId]
    exact mem_customerIds
  · have hmapne : ts.map (·.invoiceDate) ≠ [] := by
      cases ts with
      | nil => exact absurd rfl hne
      | cons a t => simp
    have hmem := foldr_max_mem (ts.map (·.invoiceDate)) hmapne
    obtain ⟨t0, ht0, hdate⟩ := List.mem_map.mp hmem
    refine ⟨t0, ht0, ?_, ?_⟩
    · rw [reference_date, maxInvoiceDate, hdate]
    · intro t ht
      rw [hdate]
      exact le_foldr_max (List.mem_map_of_mem _ ht)
  · intro m hm
    rw [rfm] at hm
    obtain ⟨c, hc, rfl⟩ := List.mem_map.mp hm
    have hcid : (aggCustomer ts (reference_date ts) c).customerId = c := rfl
    rw [hcid]
    have hgne : custTxns ts c ≠ [] := by
      have hc' : c ∈ ts.map (·.customerId) := mem_customerIds.mp hc
      obtain ⟨t, ht, hteq⟩ := List.mem_map.mp hc'
      have : t ∈ custTxns ts c := by
        rw [custTxns, List.mem_filter]
        exact ⟨ht, by rw [hteq]; exact beq_self_eq_true c⟩
      exact List.ne_nil_of_mem this
    refine ⟨?_, ?_, ?_⟩
    · have hmapne : (custTxns ts c).map (·.invoiceDate) ≠ [] := by
        cases hg : custTxns ts c with
        | nil => exact absurd hg hgne
        | cons a t => simp
      have hmem := foldr_max_mem ((custTxns ts c).map (·.invoiceDate)) hmapne
      obtain ⟨t, htg, hdate⟩ := List.mem_map.mp hmem
      have htfilter := List.mem_filter.mp htg
      refine ⟨t, htfilter.1, ?_, ?_, ?_⟩
      · exact (beq_iff_eq ..).mp htfilter.2
      · have hrec : (aggCustomer ts (reference_date ts) c).recencyDays =
            reference_date ts - maxInvoiceDate (custTxns ts c) := rfl
        rw [hrec, maxInvoiceDate, hdate]
      · intro t' ht' hcid'
        have ht'g : t' ∈ custTxns ts c := by
          rw [custTxns, List.mem_filter]
          refine ⟨ht', ?_⟩
          rw [hcid']
          exact beq_self_eq_true c
        rw [hdate]
        exact le_foldr_max (List.mem_map_of_mem _ ht'g)
    · have hfreq : (aggCustomer ts (reference_date ts) c).frequency =
          ((custTxns ts c).map (·.invoiceId)).dedup.length := rfl
      rw [hfreq, custTxns, List.card_toFinset]
    · have hmon : (aggCustomer ts (reference_date ts) c).monetary =
          ((custTxns ts c).map lineTotal).sum := rfl
      rw [hmon, custTxns]
      congr 1

theorem rfm_aggregates_witness :
    rfm ts4 = rfmW4 ∧ ((rfm ts4).map (·.customerId)).Nodup :=
  ⟨rfm_ts4, (rfm_aggregates ts4 (List.cons_ne_nil _ _)).1⟩
